import Mathlib

/-!
Verification of the contribution-graph art planning engine.

The development shallowly embeds the planner (`src/planner.js`) and the
tracker diff logic (`src/tracker.js`).  Dates are modelled as proleptic
Gregorian calendar triples with day-stepping arithmetic, mirroring the
calendar normalization the source obtains from the host date library.
The pixel font table (`src/fonts.js`) is not part of the sources; it is
modelled from the spec as an arbitrary mapping from glyph keys to
fixed-height bitmaps, so every theorem below holds for any font table.
-/

/-! ## Calendar model -/

/-- A calendar date: year, month (1-12), day of month (1-31). -/
structure YMD where
  y : Int
  m : Nat
  d : Nat
deriving DecidableEq, Repr

/-- Gregorian leap-year test. -/
def isLeap (y : Int) : Bool :=
  (y % 4 == 0 && y % 100 != 0) || (y % 400 == 0)

/-- Number of days in a month of a given year. -/
def daysInMonth (y : Int) (m : Nat) : Nat :=
  if m == 2 then (if isLeap y then 29 else 28)
  else if m == 4 || m == 6 || m == 9 || m == 11 then 30
  else 31

/-- The calendar day after `dt` (models one forward step of date
normalization in the host date library). -/
def nextDay (dt : YMD) : YMD :=
  if dt.d < daysInMonth dt.y dt.m then ⟨dt.y, dt.m, dt.d + 1⟩
  else if dt.m < 12 then ⟨dt.y, dt.m + 1, 1⟩
  else ⟨dt.y + 1, 1, 1⟩

/-- The calendar day before `dt`. -/
def prevDay (dt : YMD) : YMD :=
  if 1 < dt.d then ⟨dt.y, dt.m, dt.d - 1⟩
  else if 1 < dt.m then ⟨dt.y, dt.m - 1, daysInMonth dt.y (dt.m - 1)⟩
  else ⟨dt.y - 1, 12, 31⟩

/-- Add `n` days to a date. -/
def addDays (dt : YMD) : Nat → YMD
  | 0 => dt
  | n + 1 => nextDay (addDays dt n)

/-- Subtract `n` days from a date. -/
def subDays (dt : YMD) : Nat → YMD
  | 0 => dt
  | n + 1 => prevDay (subDays dt n)

/-- Weekday of January 1 of a year (0 = Sunday), by Zeller's congruence;
models the host date library's weekday query used by `getGraphStartDate`. -/
def jan1DayOfWeek (year : Int) : Nat :=
  let yy := year - 1
  let K := yy % 100
  let J := yy / 100
  (((37 + K + K / 4 + J / 4 + 5 * J) % 7 + 6) % 7).toNat

/-- Embeds `getGraphStartDate` of `src/planner.js`: the Sunday on or
before January 1 of the target year. -/
def getGraphStartDate (year : Int) : YMD :=
  subDays ⟨year, 1, 1⟩ (jan1DayOfWeek year)

/-- Embeds `offsetToDate` of `src/planner.js`: graph start plus
`week * 7 + day` days. -/
def offsetToDate (graphStart : YMD) (week day : Nat) : YMD :=
  addDays graphStart (week * 7 + day)

/-- Two-digit zero padding, as `String(n).padStart(2, "0")`. -/
def pad2 (n : Nat) : String :=
  if n < 10 then "0" ++ toString n else toString n

/-- Embeds `formatDate` of `src/planner.js`: `YYYY-MM-DD`. -/
def formatDate (dt : YMD) : String :=
  toString dt.y ++ "-" ++ pad2 dt.m ++ "-" ++ pad2 dt.d

/-- All days of a year in calendar order, January 1 through December 31;
the trace of the day-stepping loop of the leveling phase. -/
def daysOfYear (year : Int) : List YMD :=
  (List.range 12).flatMap fun m =>
    (List.range (daysInMonth year (m + 1))).map fun d => ⟨year, m + 1, d + 1⟩

/-! ## Font model -/

/-- A glyph bitmap: rows of 0/1 cells. -/
abbrev Glyph := List (List Nat)

/-- Modelled from the spec: the pixel font table `FONT` of `src/fonts.js`
(missing from the sources) is a mapping from glyph keys to fixed-height
bitmaps; it is kept abstract, so results hold for every font table. -/
def Font : Type := String → Option Glyph

/-- Width of a glyph, `matrix[0].length`. -/
def charWidth (matrix : Glyph) : Nat :=
  (matrix.headD []).length

/-- Scanner key extraction: the reserved two-character key `<3` is
matched greedily, otherwise one character is consumed. -/
def parseKey (c : Char) (rest : List Char) : String × List Char :=
  if c = '<' ∧ rest.head? = some '3' then ("<3", rest.tail)
  else (String.singleton c, rest)

/-- Warning text for an unsupported glyph key. -/
def skipWarning (k : String) : String :=
  "Warning: Character " ++ k ++ " not found in font, skipping"

/-- Warning text for a glyph that does not fit the 53-week grid. -/
def overflowWarning (k : String) : String :=
  "Warning: Text too long, stopping at character " ++ k

/-! ## Text-pixel map -/

/-- A provisional text-pixel entry recorded during glyph layout. -/
structure TextEntry where
  date : String
  char : String
  row : Int
  col : Int
deriving DecidableEq, Repr

/-- The `textPlanMap`: an insertion-ordered association list keyed by
date string, with the map semantics of the host language. -/
abbrev TextMap := List (String × TextEntry)

/-- Map update: replaces the value in place when the key is present,
appends otherwise (insertion-order preserving). -/
def mapSet (m : TextMap) (k : String) (v : TextEntry) : TextMap :=
  match m with
  | [] => [(k, v)]
  | (k', v') :: rest => if k' = k then (k, v) :: rest else (k', v') :: mapSet rest k v

/-- Map lookup by key. -/
def mapGet (m : TextMap) (k : String) : Option TextEntry :=
  match m with
  | [] => none
  | (k', v') :: rest => if k' = k then some v' else mapGet rest k

/-! ## Planner -/

/-- Records the filled pixels of one glyph into the text map: for each
filled bitmap cell, the absolute grid coordinate is converted to a date
and recorded only when that date falls in the target year. -/
def placeGlyph (graphStart : YMD) (year : Int) (key : String) (matrix : Glyph)
    (currentWeek : Nat) (m : TextMap) : TextMap :=
  (List.range 7).foldl (fun m row =>
    (List.range (charWidth matrix)).foldl (fun m col =>
      if (matrix.getD row []).getD col 0 == 1 then
        let dt := offsetToDate graphStart (currentWeek + col) row
        let dateStr := formatDate dt
        if dt.y == year then
          mapSet m dateStr ⟨dateStr, key, (row : Int), ((currentWeek + col : Nat) : Int)⟩
        else m
      else m) m) m

/-- The glyph-layout loop of `generatePlan`: scans the text, skipping
unsupported keys with a warning, stopping with a warning when a glyph
would overflow the 53-week grid, and otherwise placing the glyph and
advancing by its width plus a one-column gap.  Returns the text-pixel
map together with the emitted warnings. -/
def scanChars (font : Font) (graphStart : YMD) (year : Int) :
    List Char → Nat → TextMap → List String → TextMap × List String
  | [], _, m, ws => (m, ws)
  | '<' :: '3' :: rest, currentWeek, m, ws =>
    match font "<3" with
    | none => scanChars font graphStart year rest currentWeek m (ws ++ [skipWarning "<3"])
    | some matrix =>
      if 53 < currentWeek + charWidth matrix then
        (m, ws ++ [overflowWarning "<3"])
      else
        scanChars font graphStart year rest (currentWeek + charWidth matrix + 1)
          (placeGlyph graphStart year "<3" matrix currentWeek m) ws
  | c :: rest, currentWeek, m, ws =>
    match font (String.singleton c) with
    | none => scanChars font graphStart year rest currentWeek m
        (ws ++ [skipWarning (String.singleton c)])
    | some matrix =>
      if 53 < currentWeek + charWidth matrix then
        (m, ws ++ [overflowWarning (String.singleton c)])
      else
        scanChars font graphStart year rest (currentWeek + charWidth matrix + 1)
          (placeGlyph graphStart year (String.singleton c) matrix currentWeek m) ws

/-- One per-day unit of the plan. -/
structure PlanUnit where
  date : String
  commits : Int
  char : String
  row : Int
  col : Int
deriving DecidableEq, Repr

/-- Background-leveling emission: for every day of the target year,
top up to the target level (background level, plus one pixel intensity
on text-pixel days), subtracting the externally observed count; days
already at or above target emit nothing. -/
def emitLevel (cpp bgLevel : Int) (ex : String → Int) (year : Int) (m : TextMap) :
    List PlanUnit :=
  (daysOfYear year).filterMap fun dt =>
    let dateStr := formatDate dt
    let existing := ex dateStr
    let textEntry := mapGet m dateStr
    let targetLevel := match textEntry with
      | some _ => bgLevel + cpp
      | none => bgLevel
    let needed := max 0 (targetLevel - existing)
    if 0 < needed then
      some { date := dateStr
             commits := needed
             char := match textEntry with | some e => e.char | none => "bg"
             row := match textEntry with | some e => e.row | none => -1
             col := match textEntry with | some e => e.col | none => -1 }
    else none

/-- Text-only emission: one unit per recorded text-pixel entry, in map
insertion order, each with `commits = commitsPerPixel`. -/
def emitText (cpp : Int) (m : TextMap) : List PlanUnit :=
  m.map fun p =>
    { date := p.2.date, commits := cpp, char := p.2.char, row := p.2.row, col := p.2.col }

/-- Phase 2 of `generatePlan`: leveling emission when a background level
is supplied, text-only emission otherwise. -/
def emitPhase (cpp : Int) (bgLevel : Option Int) (ex : String → Int) (year : Int)
    (m : TextMap) : List PlanUnit :=
  match bgLevel with
  | some b => emitLevel cpp b ex year m
  | none => emitText cpp m

/-- Lexicographic at-most comparison on character lists: the model of the
`localeCompare(...) <= 0` ordering the source sorts by. -/
def charListLe : List Char → List Char → Bool
  | [], _ => true
  | _ :: _, [] => false
  | a :: as, b :: bs =>
    if a < b then true
    else if b < a then false
    else charListLe as bs

/-- Phase 3 of `generatePlan`: a stable sort ascending by date string
(the source sorts with a `localeCompare` comparator; any stable
comparison sort realizes it, insertion sort keeps the model executable). -/
def sortPlan (plan : List PlanUnit) : List PlanUnit :=
  plan.insertionSort fun a b => charListLe a.date.data b.date.data = true

/-- Embeds `generatePlan` of `src/planner.js`. -/
def generatePlan (font : Font) (text : String) (year : Int) (commitsPerPixel : Int)
    (startWeek : Nat) (globalBackgroundLevel : Option Int)
    (scrapedExisting : String → Int) : List PlanUnit :=
  let graphStart := getGraphStartDate year
  let upperText := text.data.map Char.toUpper
  let scanned := scanChars font graphStart year upperText startWeek [] []
  sortPlan (emitPhase commitsPerPixel globalBackgroundLevel scrapedExisting year scanned.1)

/-! ## Tracker -/

/-- The completed-commits ledger: date string to recorded commit count
(the completion timestamp carried by the source record is irrelevant to
the diff logic and omitted). -/
def Ledger : Type := String → Option Int

/-- Embeds `markCompleted` of `src/tracker.js` (the pure ledger update). -/
def markCompleted (date : String) (commits : Int) (led : Ledger) : Ledger :=
  fun d => if d = date then some commits else led d

/-- A plan unit annotated with progress information. -/
structure PendingUnit where
  date : String
  commits : Int
  char : String
  row : Int
  col : Int
  pendingCommits : Int
  doneCommits : Int
deriving DecidableEq, Repr

/-- Annotation of one unit against the ledger. -/
def annotate (led : Ledger) (u : PlanUnit) : PendingUnit :=
  let done := (led u.date).getD 0
  ⟨u.date, u.commits, u.char, u.row, u.col, max 0 (u.commits - done), done⟩

/-- Embeds `getPending` of `src/tracker.js`: annotate every unit with
its pending and done counts, then keep those with positive pending. -/
def getPending (plan : List PlanUnit) (led : Ledger) : List PendingUnit :=
  (plan.map (annotate led)).filter fun e => 0 < e.pendingCommits

/-- The text-pixel map produced by the glyph-layout phase for given inputs. -/
def textMapOf (font : Font) (text : String) (year : Int) (startWeek : Nat) : TextMap :=
  (scanChars font (getGraphStartDate year) year (text.data.map Char.toUpper) startWeek [] []).1

/-- Target level of a day under leveling, as the spec words it: background
level plus pixel intensity when the day carries a text-pixel entry. -/
def targetLevelFor (m : TextMap) (B P : Int) (dateStr : String) : Int :=
  if (mapGet m dateStr).isSome then B + P else B

/-! ## Basic lemmas -/

theorem generatePlan_eq (font : Font) (text : String) (year : Int) (cpp : Int)
    (sw : Nat) (bg : Option Int) (ex : String → Int) :
    generatePlan font text year cpp sw bg ex =
      sortPlan (emitPhase cpp bg ex year (textMapOf font text year sw)) := rfl

theorem mapSet_mem {m : TextMap} {k : String} {v : TextEntry} {p : String × TextEntry}
    (hp : p ∈ mapSet m k v) : p ∈ m ∨ p = (k, v) := by
  induction m with
  | nil => simp [mapSet] at hp; exact Or.inr hp
  | cons hd tl ih =>
    obtain ⟨k', v'⟩ := hd
    rw [mapSet] at hp
    split at hp
    · rcases List.mem_cons.mp hp with h | h
      · exact Or.inr h
      · exact Or.inl (List.mem_cons_of_mem _ h)
    · rcases List.mem_cons.mp hp with h | h
      · exact Or.inl (h ▸ List.mem_cons_self _ _)
      · rcases ih h with h' | h'
        · exact Or.inl (List.mem_cons_of_mem _ h')
        · exact Or.inr h'

theorem mapSet_keys_sub {m : TextMap} {k : String} {v : TextEntry} {x : String}
    (hx : x ∈ (mapSet m k v).map Prod.fst) : x ∈ m.map Prod.fst ∨ x = k := by
  rcases List.mem_map.mp hx with ⟨p, hp, hpx⟩
  rcases mapSet_mem hp with h | h
  · exact Or.inl (hpx ▸ List.mem_map_of_mem _ h)
  · right; rw [← hpx, h]

theorem mapSet_keys_nodup {m : TextMap} {k : String} {v : TextEntry}
    (hm : (m.map Prod.fst).Nodup) : ((mapSet m k v).map Prod.fst).Nodup := by
  induction m with
  | nil => simp [mapSet]
  | cons hd tl ih =>
    obtain ⟨k', v'⟩ := hd
    rw [mapSet]
    simp only [List.map_cons, List.nodup_cons] at hm
    split
    · rename_i heq
      simp only [List.map_cons, List.nodup_cons]
      exact ⟨heq ▸ hm.1, hm.2⟩
    · rename_i hne
      simp only [List.map_cons, List.nodup_cons]
      refine ⟨fun hmem => ?_, ih hm.2⟩
      rcases mapSet_keys_sub hmem with h | h
      · exact hm.1 h
      · exact hne h

theorem mapGet_mem {m : TextMap} {k : String} {e : TextEntry}
    (h : mapGet m k = some e) : (k, e) ∈ m := by
  induction m with
  | nil => simp [mapGet] at h
  | cons hd tl ih =>
    obtain ⟨k', v'⟩ := hd
    rw [mapGet] at h
    split at h
    · rename_i heq
      cases h
      exact heq ▸ List.mem_cons_self _ _
    · exact List.mem_cons_of_mem _ (ih h)

theorem mem_mapGet {m : TextMap} {k : String} {e : TextEntry}
    (hm : (m.map Prod.fst).Nodup) (h : (k, e) ∈ m) : mapGet m k = some e := by
  induction m with
  | nil => simp at h
  | cons hd tl ih =>
    obtain ⟨k', v'⟩ := hd
    simp only [List.map_cons, List.nodup_cons] at hm
    rw [mapGet]
    rcases List.mem_cons.mp h with h' | h'
    · cases h'
      simp
    · split
      · rename_i heq
        exact absurd (heq ▸ List.mem_map_of_mem Prod.fst h') hm.1
      · exact ih hm.2 h'

theorem foldl_preserve {β : Type} {α : Type} {Q : β → Prop} {f : β → α → β}
    {l : List α} (hf : ∀ b a, a ∈ l → Q b → Q (f b a)) :
    ∀ {b : β}, Q b → Q (l.foldl f b) := by
  induction l with
  | nil => intro b h; simpa using h
  | cons a t ih =>
    intro b h
    rw [List.foldl_cons]
    exact ih (fun b x hx hb => hf b x (List.mem_cons_of_mem _ hx) hb)
      (hf b a (List.mem_cons_self _ _) h)

theorem parseKey_fst (c : Char) (rest : List Char) :
    (parseKey c rest).1 = String.singleton c ∨ (parseKey c rest).1 = "<3" := by
  rw [parseKey]
  split
  · exact Or.inr rfl
  · exact Or.inl rfl

theorem singleton_ne_bg (c : Char) : String.singleton c ≠ "bg" := by
  intro h
  have h2 : (String.singleton c).length = ("bg" : String).length := congrArg String.length h
  simp [String.singleton, String.length] at h2

theorem key_ne_bg (c : Char) (rest : List Char) : (parseKey c rest).1 ≠ "bg" := by
  rcases parseKey_fst c rest with h | h <;> rw [h]
  · exact singleton_ne_bg c
  · decide

theorem parseKey_snd_le (c : Char) (rest : List Char) :
    (parseKey c rest).2.length ≤ rest.length := by
  rw [parseKey]
  split
  · simp [List.length_tail]
  · exact le_rfl

theorem scanChars_cons (font : Font) (gs : YMD) (year : Int) (c : Char) (rest : List Char)
    (cw : Nat) (m : TextMap) (ws : List String) :
    scanChars font gs year (c :: rest) cw m ws =
      match font (parseKey c rest).1 with
      | none => scanChars font gs year (parseKey c rest).2 cw m
          (ws ++ [skipWarning (parseKey c rest).1])
      | some matrix =>
        if 53 < cw + charWidth matrix then (m, ws ++ [overflowWarning (parseKey c rest).1])
        else scanChars font gs year (parseKey c rest).2 (cw + charWidth matrix + 1)
          (placeGlyph gs year (parseKey c rest).1 matrix cw m) ws := by
  rw [scanChars.eq_def]
  split
  · rename_i heq
    exact absurd heq (by simp)
  · rename_i heq
    injection heq with h1 h2
    subst h1
    subst h2
    simp [parseKey]
  · rename_i c2 rest2 hne heq
    injection heq with h1 h2
    rw [← h1, ← h2] at hne ⊢
    have hpk : parseKey c rest = (String.singleton c, rest) := by
      rw [parseKey, if_neg]
      rintro ⟨rfl, hh⟩
      cases rest with
      | nil => simp at hh
      | cons r rs =>
        simp only [List.head?_cons, Option.some.injEq] at hh
        exact hne rs rfl (by rw [hh])
    rw [hpk]

theorem scanChars_nil (font : Font) (gs : YMD) (year : Int) (cw : Nat) (m : TextMap)
    (ws : List String) : scanChars font gs year [] cw m ws = (m, ws) := rfl

/-! ## Well-formedness of the text-pixel map -/

/-- Invariants of one recorded text-pixel entry: its glyph key is
supported and is not the background sentinel, its stored date equals its
key, and it sits at an in-range grid cell whose mapped date (inside the
target year) formats to its key. -/
def EntryWF (font : Font) (graphStart : YMD) (year : Int) (p : String × TextEntry) : Prop :=
  (∃ M, font p.2.char = some M) ∧
  p.2.char ≠ "bg" ∧
  p.2.date = p.1 ∧
  ∃ w r : Nat, r < 7 ∧ w < 53 ∧ p.2.row = (r : Int) ∧ p.2.col = (w : Int) ∧
    p.1 = formatDate (offsetToDate graphStart w r) ∧ (offsetToDate graphStart w r).y = year

/-- Invariant of the whole text-pixel map: keys are distinct and every
entry is well formed. -/
def MapWF (font : Font) (graphStart : YMD) (year : Int) (m : TextMap) : Prop :=
  (m.map Prod.fst).Nodup ∧ ∀ p ∈ m, EntryWF font graphStart year p

theorem mapSet_forall {P : String × TextEntry → Prop} {m : TextMap} {k : String}
    {v : TextEntry} (hm : ∀ p ∈ m, P p) (hv : P (k, v)) :
    ∀ p ∈ mapSet m k v, P p :=
  fun p hp => (mapSet_mem hp).elim (hm p) (fun h => h ▸ hv)

theorem placeGlyph_WF {font : Font} {gs : YMD} {year : Int} {key : String} {matrix : Glyph}
    {cw : Nat} {m : TextMap} (hfont : font key = some matrix) (hkey : key ≠ "bg")
    (hfit : cw + charWidth matrix ≤ 53) (h : MapWF font gs year m) :
    MapWF font gs year (placeGlyph gs year key matrix cw m) := by
  unfold placeGlyph
  apply foldl_preserve ?_ h
  intro m' row hrow hm'
  apply foldl_preserve ?_ hm'
  intro m'' col hcol hm''
  simp only []
  split
  · split
    · rename_i hyear
      refine ⟨mapSet_keys_nodup hm''.1, mapSet_forall hm''.2 ?_⟩
      refine ⟨⟨matrix, hfont⟩, hkey, rfl, cw + col, row, List.mem_range.mp hrow, ?_,
        rfl, rfl, rfl, by simpa using hyear⟩
      have := List.mem_range.mp hcol
      omega
    · exact hm''
  · exact hm''

theorem scanChars_WF_bounded {font : Font} {gs : YMD} {year : Int} :
    ∀ (n : Nat) (cs : List Char), cs.length ≤ n →
      ∀ (cw : Nat) (m : TextMap) (ws : List String),
        MapWF font gs year m → MapWF font gs year (scanChars font gs year cs cw m ws).1 := by
  intro n
  induction n with
  | zero =>
    intro cs hcs cw m ws hm
    cases cs with
    | nil => rw [scanChars_nil]; exact hm
    | cons c rest => simp at hcs
  | succ n ih =>
    intro cs hcs cw m ws hm
    cases cs with
    | nil => rw [scanChars_nil]; exact hm
    | cons c rest =>
      rw [scanChars_cons]
      have hlen : (parseKey c rest).2.length ≤ n := by
        have h1 := parseKey_snd_le c rest
        simp only [List.length_cons] at hcs
        omega
      cases hfont : font (parseKey c rest).1 with
      | none => exact ih _ hlen _ _ _ hm
      | some matrix =>
        dsimp only
        split
        · exact hm
        · rename_i hfit
          exact ih _ hlen _ _ _
            (placeGlyph_WF hfont (key_ne_bg c rest) (by omega) hm)

theorem scanChars_WF {font : Font} {gs : YMD} {year : Int}
    (cs : List Char) (cw : Nat) (m : TextMap) (ws : List String)
    (hm : MapWF font gs year m) :
    MapWF font gs year (scanChars font gs year cs cw m ws).1 :=
  scanChars_WF_bounded cs.length cs le_rfl cw m ws hm

theorem textMapOf_WF (font : Font) (text : String) (year : Int) (sw : Nat) :
    MapWF font (getGraphStartDate year) year (textMapOf font text year sw) :=
  scanChars_WF _ _ _ _ ⟨List.nodup_nil, by simp⟩

/-! ## Days of the year -/

theorem daysInMonth_le (y : Int) (m : Nat) : daysInMonth y m ≤ 31 := by
  unfold daysInMonth
  split
  · split <;> omega
  · split <;> omega

theorem mem_daysOfYear {year : Int} {dt : YMD} :
    dt ∈ daysOfYear year ↔
      dt.y = year ∧ 1 ≤ dt.m ∧ dt.m ≤ 12 ∧ 1 ≤ dt.d ∧ dt.d ≤ daysInMonth year dt.m := by
  obtain ⟨y, m, d⟩ := dt
  simp only [daysOfYear, List.mem_flatMap, List.mem_map, List.mem_range]
  constructor
  · rintro ⟨m', hm', d', hd', heq⟩
    injection heq with h1 h2 h3
    subst h1; subst h2; subst h3
    refine ⟨rfl, by omega, by omega, by omega, by omega⟩
  · rintro ⟨rfl, h1, h2, h3, h4⟩
    refine ⟨m - 1, by omega, d - 1, ?_, ?_⟩
    · have hm : m - 1 + 1 = m := by omega
      rw [hm]
      omega
    · have hm : m - 1 + 1 = m := by omega
      have hd : d - 1 + 1 = d := by omega
      rw [hm, hd]

theorem daysOfYear_nodup (year : Int) : (daysOfYear year).Nodup := by
  unfold daysOfYear
  rw [List.nodup_flatMap]
  constructor
  · intro x _
    exact (List.nodup_range _).map fun a b h => by injection h with _ _ h3; omega
  · have : (List.range 12).Pairwise (· ≠ ·) := (List.nodup_range 12)
    refine this.imp fun {a b} hab => ?_
    intro x hxa hxb
    simp only [List.mem_map, List.mem_range] at hxa hxb
    obtain ⟨da, _, ha⟩ := hxa
    obtain ⟨db, _, hb⟩ := hxb
    rw [← hb] at ha
    injection ha with _ h2 _
    exact hab (by omega)

/-! ## Injectivity of date formatting within a year -/

theorem string_eq_of_data {s t : String} (h : s.data = t.data) : s = t := by
  cases s
  cases t
  exact congrArg String.mk h

theorem pad2_data_length : ∀ n < 32, (pad2 n).data.length = 2 := by decide

theorem pad2_inj : ∀ m < 32, ∀ n < 32, pad2 m = pad2 n → m = n := by decide

theorem formatDate_inj {y : Int} {m1 d1 m2 d2 : Nat} (hm1 : m1 < 32) (hd1 : d1 < 32)
    (hm2 : m2 < 32) (hd2 : d2 < 32)
    (h : formatDate ⟨y, m1, d1⟩ = formatDate ⟨y, m2, d2⟩) : m1 = m2 ∧ d1 = d2 := by
  unfold formatDate at h
  have hdata := congrArg String.data h
  simp only [String.data_append] at hdata
  have hpd : (pad2 d1).data.length = (pad2 d2).data.length := by
    rw [pad2_data_length d1 hd1, pad2_data_length d2 hd2]
  obtain ⟨hpre, hd⟩ := List.append_inj' hdata hpd
  have hm : (pad2 m1).data = (pad2 m2).data :=
    List.append_cancel_left (List.append_cancel_right hpre)
  exact ⟨pad2_inj m1 hm1 m2 hm2 (string_eq_of_data hm),
    pad2_inj d1 hd1 d2 hd2 (string_eq_of_data hd)⟩

theorem formatDate_inj_daysOfYear {year : Int} {dt1 dt2 : YMD}
    (h1 : dt1 ∈ daysOfYear year) (h2 : dt2 ∈ daysOfYear year)
    (h : formatDate dt1 = formatDate dt2) : dt1 = dt2 := by
  obtain ⟨y1, m1, d1⟩ := dt1
  obtain ⟨y2, m2, d2⟩ := dt2
  obtain ⟨hy1, hm1a, hm1b, hd1a, hd1b⟩ := mem_daysOfYear.mp h1
  obtain ⟨hy2, hm2a, hm2b, hd2a, hd2b⟩ := mem_daysOfYear.mp h2
  simp only at hy1 hy2 hm1b hd1b hm2b hd2b
  have hy : y1 = y2 := hy1.trans hy2.symm
  subst hy
  have hb1 : d1 ≤ 31 := le_trans hd1b (daysInMonth_le _ _)
  have hb2 : d2 ≤ 31 := le_trans hd2b (daysInMonth_le _ _)
  obtain ⟨hm, hd⟩ := formatDate_inj (by omega) (by omega) (by omega) (by omega) h
  rw [hm, hd]

theorem daysOfYear_dates_nodup (year : Int) :
    ((daysOfYear year).map formatDate).Nodup :=
  (daysOfYear_nodup year).map_on fun _ h1 _ h2 h => formatDate_inj_daysOfYear h1 h2 h

/-! ## Sorting -/

theorem charListLe_iff : ∀ as bs : List Char,
    charListLe as bs = true ↔ (List.Lex (· < ·) as bs ∨ as = bs) := by
  intro as
  induction as with
  | nil =>
    intro bs
    cases bs with
    | nil => simp [charListLe]
    | cons b bs => simp [charListLe, List.Lex.nil]
  | cons a as ih =>
    intro bs
    cases bs with
    | nil =>
      simp only [charListLe, Bool.false_eq_true, false_iff]
      rintro (h | h)
      · cases h
      · cases h
    | cons b bs =>
      rw [charListLe]
      by_cases hab : a < b
      · simp only [if_pos hab, true_iff]
        exact Or.inl (List.Lex.rel hab)
      · by_cases hba : b < a
        · rw [if_neg hab, if_pos hba]
          simp only [Bool.false_eq_true, false_iff]
          rintro (h | h)
          · cases h with
            | rel h' => exact absurd h' hab
            | cons h' => exact absurd rfl (ne_of_gt hba)
          · injection h with h1 h2
            exact absurd h1 (ne_of_gt hba)
        · have heq : a = b := le_antisymm (le_of_not_lt hba) (le_of_not_lt hab)
          subst heq
          rw [if_neg hab, if_neg hba, ih bs]
          constructor
          · rintro (h | rfl)
            · exact Or.inl (List.Lex.cons h)
            · exact Or.inr rfl
          · rintro (h | h)
            · cases h with
              | rel h' => exact absurd h' hab
              | cons h' => exact Or.inl h'
            · injection h with h1 h2
              exact Or.inr h2

theorem charListLe_le {a b : String} (h : charListLe a.data b.data = true) : a ≤ b := by
  rcases (charListLe_iff a.data b.data).mp h with h' | h'
  · rw [le_iff_lt_or_eq, String.lt_iff_toList_lt]
    exact Or.inl h'
  · exact le_of_eq (string_eq_of_data h')

theorem le_charListLe {a b : String} (h : a ≤ b) : charListLe a.data b.data = true := by
  rw [le_iff_lt_or_eq, String.lt_iff_toList_lt] at h
  rcases h with h' | h'
  · exact (charListLe_iff a.data b.data).mpr (Or.inl h')
  · exact (charListLe_iff a.data b.data).mpr (Or.inr (congrArg String.data h'))

theorem sortPlan_perm (l : List PlanUnit) : List.Perm (sortPlan l) l :=
  List.perm_insertionSort _ l

theorem mem_sortPlan {u : PlanUnit} {l : List PlanUnit} : u ∈ sortPlan l ↔ u ∈ l :=
  (sortPlan_perm l).mem_iff

theorem sortPlan_sorted (l : List PlanUnit) :
    (sortPlan l).Pairwise (fun a b => a.date ≤ b.date) := by
  haveI : IsTotal PlanUnit (fun a b => charListLe a.date.data b.date.data = true) :=
    ⟨fun a b => by
      rcases le_total a.date b.date with h | h
      · exact Or.inl (le_charListLe h)
      · exact Or.inr (le_charListLe h)⟩
  haveI : IsTrans PlanUnit (fun a b => charListLe a.date.data b.date.data = true) :=
    ⟨fun a b c h1 h2 => le_charListLe (le_trans (charListLe_le h1) (charListLe_le h2))⟩
  have h := List.sorted_insertionSort
    (fun a b : PlanUnit => charListLe a.date.data b.date.data = true) l
  exact h.imp fun hx => charListLe_le hx

theorem sortPlan_dates_nodup {l : List PlanUnit} (h : (l.map PlanUnit.date).Nodup) :
    ((sortPlan l).map PlanUnit.date).Nodup :=
  (((sortPlan_perm l).map PlanUnit.date).nodup_iff).mpr h

/-! ## Emission lemmas -/

/-- The unit the leveling pass builds for a day (before the positivity
filter), written with `targetLevelFor`. -/
def levelUnitFor (cpp B : Int) (ex : String → Int) (m : TextMap) (ds : String) : PlanUnit :=
  { date := ds
    commits := max 0 (targetLevelFor m B cpp ds - ex ds)
    char := match mapGet m ds with | some e => e.char | none => "bg"
    row := match mapGet m ds with | some e => e.row | none => -1
    col := match mapGet m ds with | some e => e.col | none => -1 }

theorem emitLevel_eq (cpp B : Int) (ex : String → Int) (year : Int) (m : TextMap) :
    emitLevel cpp B ex year m = (daysOfYear year).filterMap fun dt =>
      if 0 < (levelUnitFor cpp B ex m (formatDate dt)).commits then
        some (levelUnitFor cpp B ex m (formatDate dt))
      else none := by
  unfold emitLevel
  refine congrArg (fun f => List.filterMap f (daysOfYear year)) (funext fun dt => ?_)
  cases hmg : mapGet m (formatDate dt) with
  | none => simp [hmg, targetLevelFor, levelUnitFor]
  | some e => simp [hmg, targetLevelFor, levelUnitFor]

theorem emitLevel_mem {cpp B : Int} {ex : String → Int} {year : Int} {m : TextMap}
    {u : PlanUnit} :
    u ∈ emitLevel cpp B ex year m ↔
      ∃ dt ∈ daysOfYear year, 0 < (levelUnitFor cpp B ex m (formatDate dt)).commits ∧
        u = levelUnitFor cpp B ex m (formatDate dt) := by
  rw [emitLevel_eq, List.mem_filterMap]
  constructor
  · rintro ⟨dt, hdt, hu⟩
    split at hu
    · rename_i hpos
      cases hu
      exact ⟨dt, hdt, hpos, rfl⟩
    · cases hu
  · rintro ⟨dt, hdt, hpos, rfl⟩
    refine ⟨dt, hdt, ?_⟩
    rw [if_pos hpos]

theorem emitText_mem {cpp : Int} {m : TextMap} {u : PlanUnit} :
    u ∈ emitText cpp m ↔ ∃ p ∈ m,
      u = { date := p.2.date, commits := cpp, char := p.2.char,
            row := p.2.row, col := p.2.col } := by
  simp only [emitText, List.mem_map]
  constructor
  · rintro ⟨p, hp, rfl⟩
    exact ⟨p, hp, rfl⟩
  · rintro ⟨p, hp, rfl⟩
    exact ⟨p, hp, rfl⟩

theorem emitText_dates {cpp : Int} {m : TextMap}
    (h : ∀ p ∈ m, (p : String × TextEntry).2.date = p.1) :
    (emitText cpp m).map PlanUnit.date = m.map Prod.fst := by
  unfold emitText
  rw [List.map_map]
  exact List.map_congr_left fun p hp => h p hp

theorem filterMap_dates_sublist {l : List YMD} {f : YMD → Option PlanUnit}
    (hf : ∀ dt u, f dt = some u → u.date = formatDate dt) :
    List.Sublist ((l.filterMap f).map PlanUnit.date) (l.map formatDate) := by
  induction l with
  | nil => simp
  | cons a t ih =>
    rw [List.filterMap_cons]
    cases hfa : f a with
    | none =>
      rw [List.map_cons]
      exact ih.cons _
    | some u =>
      rw [List.map_cons, List.map_cons, hf a u hfa]
      exact ih.cons₂ _

theorem emitLevel_dates_nodup (cpp B : Int) (ex : String → Int) (year : Int) (m : TextMap) :
    ((emitLevel cpp B ex year m).map PlanUnit.date).Nodup := by
  rw [emitLevel_eq]
  refine (filterMap_dates_sublist ?_).nodup (daysOfYear_dates_nodup year)
  intro dt u h
  split at h
  · cases h
    rfl
  · cases h

theorem emitText_dates_nodup {cpp : Int} {m : TextMap} (hn : (m.map Prod.fst).Nodup)
    (h : ∀ p ∈ m, (p : String × TextEntry).2.date = p.1) :
    ((emitText cpp m).map PlanUnit.date).Nodup := by
  rw [emitText_dates h]
  exact hn

theorem emitPhase_some (cpp b : Int) (ex : String → Int) (year : Int) (m : TextMap) :
    emitPhase cpp (some b) ex year m = emitLevel cpp b ex year m := rfl

theorem emitPhase_none (cpp : Int) (ex : String → Int) (year : Int) (m : TextMap) :
    emitPhase cpp none ex year m = emitText cpp m := rfl

/-! ## Demonstration inputs used by the witness theorems -/

/-- A small concrete font table for witnesses (all glyphs 7 rows tall). -/
def demoFont : Font := fun k =>
  if k = "!" then some [[1], [1], [1], [1], [1], [0], [1]]
  else if k = "<3" then some [[0, 0], [1, 1], [1, 1], [1, 1], [0, 1], [0, 0], [0, 0]]
  else none

/-- A concrete plan unit for tracker witnesses. -/
def demoUnit : PlanUnit :=
  { date := "2026-01-05", commits := 20, char := "H", row := 0, col := 1 }

/-- An all-empty ledger. -/
def emptyLedger : Ledger := fun _ => none

/-! ## Claim theorems -/

/-- C7: every plan returned by `generatePlan`, in either emission mode, is
sorted ascending by its date string, and its dates are pairwise distinct. -/
theorem plan_sorted_dates_distinct (font : Font) (text : String) (year : Int)
    (cpp : Int) (sw : Nat) (bg : Option Int) (ex : String → Int) :
    (generatePlan font text year cpp sw bg ex).Pairwise (fun a b => a.date ≤ b.date) ∧
    ((generatePlan font text year cpp sw bg ex).map PlanUnit.date).Nodup := by
  rw [generatePlan_eq]
  refine ⟨sortPlan_sorted _, sortPlan_dates_nodup ?_⟩
  obtain ⟨hn, hwf⟩ := textMapOf_WF font text year sw
  cases bg with
  | some b =>
    rw [emitPhase_some]
    exact emitLevel_dates_nodup cpp b ex year _
  | none =>
    rw [emitPhase_none]
    exact emitText_dates_nodup hn fun p hp => (hwf p hp).2.2.1

/-- C9: with leveling disabled (`backgroundLevel` null) the plan does not
depend on the observed existing counts, and every unit carries
`commits = commitsPerPixel`. -/
theorem leveling_disabled_independence (font : Font) (text : String) (year : Int)
    (cpp : Int) (sw : Nat) (E1 E2 : String → Int) :
    generatePlan font text year cpp sw none E1 = generatePlan font text year cpp sw none E2 ∧
    ∀ u ∈ generatePlan font text year cpp sw none E1, u.commits = cpp := by
  constructor
  · rfl
  · intro u hu
    rw [generatePlan_eq, mem_sortPlan, emitPhase_none] at hu
    obtain ⟨p, hp, rfl⟩ := emitText_mem.mp hu
    rfl

/-- The unit the demo font's exclamation mark places on January 1, 2026. -/
def bangJan1 : PlanUnit :=
  { date := "2026-01-01", commits := 20, char := "!", row := 4, col := 0 }

/-- C9 witness: concrete instantiation of the second conjunct. -/
theorem leveling_disabled_independence_witness :
    (generatePlan demoFont "!" 2026 20 0 none (fun _ => 3) =
      generatePlan demoFont "!" 2026 20 0 none (fun _ => 7)) ∧
    bangJan1 ∈ generatePlan demoFont "!" 2026 20 0 none (fun _ => 3) ∧
    bangJan1.commits = 20 :=
  ⟨(leveling_disabled_independence demoFont "!" 2026 20 0 (fun _ => 3) (fun _ => 7)).1,
   by decide,
   (leveling_disabled_independence demoFont "!" 2026 20 0 (fun _ => 3) (fun _ => 7)).2
     _ (by decide)⟩

/-- C2: `getPending` is the subsequence of the plan keeping, in plan order
and with all original fields, exactly the units whose
`pendingCommits = max 0 (commits - completed)` is positive, annotated with
`pendingCommits` and `doneCommits`; in particular a unit whose date is
recorded with `k` commits, `0 < k < commits`, is kept with
`pendingCommits = commits - k`. -/
theorem pending_computation (plan : List PlanUnit) (led : Ledger) :
    (getPending plan led =
      (plan.filter fun u => 0 < max 0 (u.commits - (led u.date).getD 0)).map
        (annotate led)) ∧
    ∀ u ∈ plan, ∀ k : Int, 0 < k → k < u.commits → led u.date = some k →
      annotate led u ∈ getPending plan led ∧
      (annotate led u).pendingCommits = u.commits - k ∧
      (annotate led u).doneCommits = k := by
  constructor
  · unfold getPending
    rw [List.filter_map]
    rfl
  · intro u hu k hk0 hkc hled
    have hpend : (annotate led u).pendingCommits = u.commits - k := by
      simp only [annotate, hled, Option.getD_some]
      omega
    have hdone : (annotate led u).doneCommits = k := by
      simp only [annotate, hled, Option.getD_some]
    refine ⟨?_, hpend, hdone⟩
    unfold getPending
    refine List.mem_filter.mpr ⟨List.mem_map_of_mem _ hu, ?_⟩
    simp only [hpend]
    simp only [decide_eq_true_eq]
    omega

/-- C2 witness: a unit marked with 3 of its 20 commits stays pending with
17 remaining. -/
theorem pending_computation_witness :
    (getPending [demoUnit] (markCompleted "2026-01-05" 3 emptyLedger) =
      ([demoUnit].filter fun u =>
        0 < max 0 (u.commits -
          ((markCompleted "2026-01-05" 3 emptyLedger) u.date).getD 0)).map
        (annotate (markCompleted "2026-01-05" 3 emptyLedger))) ∧
    demoUnit ∈ [demoUnit] ∧ (0 : Int) < 3 ∧ (3 : Int) < demoUnit.commits ∧
    markCompleted "2026-01-05" 3 emptyLedger demoUnit.date = some 3 ∧
    annotate (markCompleted "2026-01-05" 3 emptyLedger) demoUnit ∈
      getPending [demoUnit] (markCompleted "2026-01-05" 3 emptyLedger) ∧
    (annotate (markCompleted "2026-01-05" 3 emptyLedger) demoUnit).pendingCommits =
      demoUnit.commits - 3 :=
  ⟨(pending_computation [demoUnit] (markCompleted "2026-01-05" 3 emptyLedger)).1,
   by decide, by decide, by decide, by decide,
   ((pending_computation [demoUnit] (markCompleted "2026-01-05" 3 emptyLedger)).2
      demoUnit (by decide) 3 (by decide) (by decide) (by decide)).1,
   ((pending_computation [demoUnit] (markCompleted "2026-01-05" 3 emptyLedger)).2
      demoUnit (by decide) 3 (by decide) (by decide) (by decide)).2.1⟩

/-- C3: when every unit's date is recorded with at least its full commit
count, the pending set is empty. -/
theorem idempotent_resumption (plan : List PlanUnit) (led : Ledger)
    (h : ∀ u ∈ plan, ∃ k : Int, led u.date = some k ∧ u.commits ≤ k) :
    getPending plan led = [] := by
  unfold getPending
  rw [List.filter_eq_nil_iff]
  intro e he
  obtain ⟨u, hu, rfl⟩ := List.mem_map.mp he
  obtain ⟨k, hk, hle⟩ := h u hu
  simp only [annotate, hk, Option.getD_some, decide_eq_true_eq, not_lt]
  omega

/-- C1: under background leveling, for every calendar day of the target
year the plan has a unit dated that day with
`commits = max 0 (target - existing)` exactly when that value is
positive, where the target is `B + P` on text-pixel days and `B`
otherwise; days whose existing count meets or exceeds the target
contribute no unit at all. -/
theorem leveling_correctness (font : Font) (text : String) (year : Int) (P B : Int)
    (sw : Nat) (E : String → Int) (hP : 0 < P) (dt : YMD) (hdt : dt ∈ daysOfYear year) :
    ((∃ u ∈ generatePlan font text year P sw (some B) E,
        u.date = formatDate dt ∧
        u.commits = max 0 (targetLevelFor (textMapOf font text year sw) B P (formatDate dt) -
          E (formatDate dt))) ↔
      0 < max 0 (targetLevelFor (textMapOf font text year sw) B P (formatDate dt) -
        E (formatDate dt))) ∧
    (targetLevelFor (textMapOf font text year sw) B P (formatDate dt) ≤ E (formatDate dt) →
      ∀ u ∈ generatePlan font text year P sw (some B) E, u.date ≠ formatDate dt) := by
  constructor
  · constructor
    · rintro ⟨u, hu, hdate, hcommits⟩
      rw [generatePlan_eq, mem_sortPlan, emitPhase_some] at hu
      obtain ⟨dt', hdt', hpos, rfl⟩ := emitLevel_mem.mp hu
      have hfmt : formatDate dt' = formatDate dt := hdate
      rw [hfmt] at hpos
      exact hpos
    · intro hpos
      refine ⟨levelUnitFor P B E (textMapOf font text year sw) (formatDate dt), ?_, rfl, rfl⟩
      rw [generatePlan_eq, mem_sortPlan, emitPhase_some]
      exact emitLevel_mem.mpr ⟨dt, hdt, hpos, rfl⟩
  · intro hle u hu hdate
    rw [generatePlan_eq, mem_sortPlan, emitPhase_some] at hu
    obtain ⟨dt', hdt', hpos, rfl⟩ := emitLevel_mem.mp hu
    have hfmt : formatDate dt' = formatDate dt := hdate
    have heq : dt' = dt := formatDate_inj_daysOfYear hdt' hdt hfmt
    subst heq
    have hx : (0 : Int) < max 0 (targetLevelFor (textMapOf font text year sw) B P
        (formatDate dt') - E (formatDate dt')) := hpos
    rw [hfmt] at hx
    rcases lt_max_iff.mp hx with h | h
    · exact absurd h (lt_irrefl 0)
    · omega

/-- C1 witness: concrete instantiation at January 2, 2026, a background
day whose existing count is zero. -/
theorem leveling_correctness_witness :
    (0 : Int) < 20 ∧ (⟨2026, 1, 2⟩ : YMD) ∈ daysOfYear 2026 ∧
    (((∃ u ∈ generatePlan demoFont "!" 2026 20 0 (some 5) (fun _ => 0),
        u.date = formatDate ⟨2026, 1, 2⟩ ∧
        u.commits = max 0 (targetLevelFor (textMapOf demoFont "!" 2026 0) 5 20
          (formatDate ⟨2026, 1, 2⟩) - (fun _ => (0 : Int)) (formatDate ⟨2026, 1, 2⟩))) ↔
      0 < max 0 (targetLevelFor (textMapOf demoFont "!" 2026 0) 5 20
        (formatDate ⟨2026, 1, 2⟩) - (fun _ => (0 : Int)) (formatDate ⟨2026, 1, 2⟩))) ∧
    (targetLevelFor (textMapOf demoFont "!" 2026 0) 5 20 (formatDate ⟨2026, 1, 2⟩) ≤
        (fun _ => (0 : Int)) (formatDate ⟨2026, 1, 2⟩) →
      ∀ u ∈ generatePlan demoFont "!" 2026 20 0 (some 5) (fun _ => 0),
        u.date ≠ formatDate ⟨2026, 1, 2⟩)) :=
  ⟨by decide, by decide,
   leveling_correctness demoFont "!" 2026 20 5 0 (fun _ => 0) (by decide)
     ⟨2026, 1, 2⟩ (by decide)⟩

/-- C6: glyph layout records a text-pixel entry only for grid cells whose
mapped date (anchor plus `week*7 + day` days) falls in the target year;
consequently every text-pixel unit of any returned plan is dated inside
the target year. -/
theorem target_year_filter (font : Font) (text : String) (year : Int) (sw : Nat) :
    (∀ p ∈ textMapOf font text year sw, ∃ w r : Nat, r < 7 ∧
      (p : String × TextEntry).2.row = (r : Int) ∧ p.2.col = (w : Int) ∧
      p.1 = formatDate (offsetToDate (getGraphStartDate year) w r) ∧
      (offsetToDate (getGraphStartDate year) w r).y = year) ∧
    (∀ (cpp : Int) (bg : Option Int) (ex : String → Int),
      ∀ u ∈ generatePlan font text year cpp sw bg ex, u.char ≠ "bg" →
        ∃ dt : YMD, dt.y = year ∧ u.date = formatDate dt) := by
  obtain ⟨hn, hwf⟩ := textMapOf_WF font text year sw
  constructor
  · intro p hp
    obtain ⟨_, _, _, w, r, hr, hw, hrow, hcol, hfmt, hy⟩ := hwf p hp
    exact ⟨w, r, hr, hrow, hcol, hfmt, hy⟩
  · intro cpp bg ex u hu hchar
    rw [generatePlan_eq, mem_sortPlan] at hu
    cases bg with
    | none =>
      rw [emitPhase_none] at hu
      obtain ⟨p, hp, rfl⟩ := emitText_mem.mp hu
      obtain ⟨_, _, hdk, w, r, hr, hw, hrow, hcol, hfmt, hy⟩ := hwf p hp
      refine ⟨offsetToDate (getGraphStartDate year) w r, hy, ?_⟩
      show p.2.date = _
      rw [hdk, hfmt]
    | some b =>
      rw [emitPhase_some] at hu
      obtain ⟨dt', hdt', hpos, rfl⟩ := emitLevel_mem.mp hu
      exact ⟨dt', (mem_daysOfYear.mp hdt').1, rfl⟩

/-- C6 witness: concrete instantiation; the demo plan has a text unit. -/
theorem target_year_filter_witness :
    ("2026-01-01", ({ date := "2026-01-01", char := "!", row := 4, col := 0 } : TextEntry)) ∈
      textMapOf demoFont "!" 2026 0 ∧
    bangJan1 ∈ generatePlan demoFont "!" 2026 20 0 none (fun _ => 0) ∧
    bangJan1.char ≠ "bg" ∧
    (∃ w r : Nat, r < 7 ∧
      (("2026-01-01", ({ date := "2026-01-01", char := "!", row := 4, col := 0 } :
        TextEntry)) : String × TextEntry).2.row = (r : Int) ∧
      ("2026-01-01", ({ date := "2026-01-01", char := "!", row := 4, col := 0 } :
        TextEntry)).2.col = (w : Int) ∧
      ("2026-01-01", ({ date := "2026-01-01", char := "!", row := 4, col := 0 } :
        TextEntry)).1 = formatDate (offsetToDate (getGraphStartDate 2026) w r) ∧
      (offsetToDate (getGraphStartDate 2026) w r).y = 2026) ∧
    (∃ dt : YMD, dt.y = 2026 ∧ bangJan1.date = formatDate dt) :=
  ⟨by decide, by decide, by decide,
   (target_year_filter demoFont "!" 2026 0).1 _ (by decide),
   (target_year_filter demoFont "!" 2026 0).2 20 none (fun _ => 0) bangJan1
     (by decide) (by decide)⟩

/-- C8: every text-pixel unit of a plan (char not the background
sentinel) carries grid coordinates with row in `[0,7)` and col in
`[0,53)`. -/
theorem glyph_containment (font : Font) (text : String) (year : Int) (cpp : Int)
    (sw : Nat) (bg : Option Int) (ex : String → Int) :
    ∀ u ∈ generatePlan font text year cpp sw bg ex, u.char ≠ "bg" →
      0 ≤ u.row ∧ u.row < 7 ∧ 0 ≤ u.col ∧ u.col < 53 := by
  intro u hu hchar
  rw [generatePlan_eq, mem_sortPlan] at hu
  obtain ⟨hn, hwf⟩ := textMapOf_WF font text year sw
  cases bg with
  | none =>
    rw [emitPhase_none] at hu
    obtain ⟨p, hp, rfl⟩ := emitText_mem.mp hu
    obtain ⟨_, _, _, w, r, hr, hw, hrow, hcol, _, _⟩ := hwf p hp
    refine ⟨?_, ?_, ?_, ?_⟩ <;> dsimp only <;> simp only [hrow, hcol] <;> omega
  | some b =>
    rw [emitPhase_some] at hu
    obtain ⟨dt', hdt', hpos, rfl⟩ := emitLevel_mem.mp hu
    cases hmg : mapGet (textMapOf font text year sw) (formatDate dt') with
    | none =>
      exfalso
      apply hchar
      simp [levelUnitFor, hmg]
    | some e =>
      obtain ⟨_, _, _, w, r, hr, hw, hrow, hcol, _, _⟩ := hwf _ (mapGet_mem hmg)
      have hrow2 : e.row = (r : Int) := hrow
      have hcol2 : e.col = (w : Int) := hcol
      refine ⟨?_, ?_, ?_, ?_⟩ <;> simp only [levelUnitFor, hmg] <;>
        simp only [hrow2, hcol2] <;> omega

/-- C8 witness: the demo text unit is in range. -/
theorem glyph_containment_witness :
    bangJan1 ∈ generatePlan demoFont "!" 2026 20 0 none (fun _ => 0) ∧
    bangJan1.char ≠ "bg" ∧
    (0 ≤ bangJan1.row ∧ bangJan1.row < 7 ∧ 0 ≤ bangJan1.col ∧ bangJan1.col < 53) :=
  ⟨by decide, by decide,
   glyph_containment demoFont "!" 2026 20 0 none (fun _ => 0) bangJan1
     (by decide) (by decide)⟩

/-- C10: a unit carries the background sentinel char exactly when its
coordinates are the (-1,-1) sentinel; background units require leveling
mode, and every non-background unit copies char and coordinates from the
text-pixel entry recorded for its date. -/
theorem sentinel_coupling (font : Font) (text : String) (year : Int) (cpp : Int)
    (sw : Nat) (bg : Option Int) (ex : String → Int) :
    ∀ u ∈ generatePlan font text year cpp sw bg ex,
      (u.char = "bg" ↔ u.row = -1 ∧ u.col = -1) ∧
      (bg = none → u.char ≠ "bg") ∧
      (u.char ≠ "bg" → ∃ e, mapGet (textMapOf font text year sw) u.date = some e ∧
        u.char = e.char ∧ u.row = e.row ∧ u.col = e.col) := by
  intro u hu
  rw [generatePlan_eq, mem_sortPlan] at hu
  obtain ⟨hn, hwf⟩ := textMapOf_WF font text year sw
  cases bg with
  | none =>
    rw [emitPhase_none] at hu
    obtain ⟨p, hp, rfl⟩ := emitText_mem.mp hu
    obtain ⟨hsup, hbg, hdk, w, r, hr, hw, hrow, hcol, hfmt, hy⟩ := hwf p hp
    refine ⟨⟨fun h => absurd h hbg, ?_⟩, fun _ => hbg, fun _ => ⟨p.2, ?_, rfl, rfl, rfl⟩⟩
    · rintro ⟨h1, _⟩
      dsimp only at h1
      rw [hrow] at h1
      exfalso
      omega
    · have hmem : (p.1, p.2) ∈ textMapOf font text year sw := by
        simpa using hp
      have hget := mem_mapGet hn hmem
      show mapGet _ p.2.date = _
      rw [hdk]
      exact hget
  | some b =>
    rw [emitPhase_some] at hu
    obtain ⟨dt', hdt', hpos, rfl⟩ := emitLevel_mem.mp hu
    cases hmg : mapGet (textMapOf font text year sw) (formatDate dt') with
    | none =>
      refine ⟨?_, ?_, ?_⟩
      · simp [levelUnitFor, hmg]
      · intro h
        simp at h
      · intro hch
        exfalso
        apply hch
        simp [levelUnitFor, hmg]
    | some e =>
      obtain ⟨hsup, hbg, hdk, w, r, hr, hw, hrow, hcol, hfmt, hy⟩ :=
        hwf _ (mapGet_mem hmg)
      refine ⟨⟨?_, ?_⟩, ?_, ?_⟩
      · intro h
        simp only [levelUnitFor, hmg] at h
        exact absurd h hbg
      · rintro ⟨h1, _⟩
        simp only [levelUnitFor, hmg] at h1
        rw [hrow] at h1
        exfalso
        omega
      · intro h
        simp only [levelUnitFor, hmg]
        exact hbg
      · intro _
        refine ⟨e, ?_, ?_, ?_, ?_⟩ <;> simp only [levelUnitFor, hmg]

/-- C10 witness: concrete instantiation at the demo text unit. -/
theorem sentinel_coupling_witness :
    bangJan1 ∈ generatePlan demoFont "!" 2026 20 0 none (fun _ => 0) ∧
    ((bangJan1.char = "bg" ↔ bangJan1.row = -1 ∧ bangJan1.col = -1) ∧
      ((none : Option Int) = none → bangJan1.char ≠ "bg") ∧
      (bangJan1.char ≠ "bg" → ∃ e, mapGet (textMapOf demoFont "!" 2026 0) bangJan1.date =
        some e ∧ bangJan1.char = e.char ∧ bangJan1.row = e.row ∧ bangJan1.col = e.col)) :=
  ⟨by decide,
   sentinel_coupling demoFont "!" 2026 20 0 none (fun _ => 0) bangJan1 (by decide)⟩

/-- C4: when the next glyph would overflow the 53-week grid, the scan
stops at that character, recording nothing further and emitting one
truncation warning; `generatePlan` still returns the plan emitted from
whatever the scan recorded. -/
theorem grid_overflow_truncation (font : Font) (gs : YMD) (year : Int) (c : Char)
    (rest : List Char) (cw : Nat) (m : TextMap) (ws : List String) (matrix : Glyph)
    (hsome : font (parseKey c rest).1 = some matrix)
    (hover : 53 < cw + charWidth matrix) :
    scanChars font gs year (c :: rest) cw m ws =
      (m, ws ++ [overflowWarning (parseKey c rest).1]) ∧
    ∀ (text : String) (cpp : Int) (sw : Nat) (bg : Option Int) (ex : String → Int),
      generatePlan font text year cpp sw bg ex =
        sortPlan (emitPhase cpp bg ex year (textMapOf font text year sw)) := by
  constructor
  · rw [scanChars_cons, hsome]
    dsimp only
    rw [if_pos hover]
  · intro text cpp sw bg ex
    exact generatePlan_eq font text year cpp sw bg ex

/-- C4 witness: at week 53 even the one-column demo glyph overflows. -/
theorem grid_overflow_truncation_witness :
    demoFont (parseKey '!' []).1 = some [[1], [1], [1], [1], [1], [0], [1]] ∧
    53 < 53 + charWidth [[1], [1], [1], [1], [1], [0], [1]] ∧
    scanChars demoFont (getGraphStartDate 2026) 2026 ['!'] 53 [] [] =
      ([], [overflowWarning (parseKey '!' []).1]) :=
  ⟨by decide, by decide,
   (grid_overflow_truncation demoFont (getGraphStartDate 2026) 2026 '!' [] 53 [] []
     [[1], [1], [1], [1], [1], [0], [1]] (by decide) (by decide)).1⟩

/-- C5: an unsupported glyph key is skipped with a warning, consuming no
grid width, and the scan continues with the remaining text; consequently
no unit of any plan carries an unsupported char. -/
theorem unsupported_glyph_skip (font : Font) (gs : YMD) (year : Int) (c : Char)
    (rest : List Char) (cw : Nat) (m : TextMap) (ws : List String)
    (hnone : font (parseKey c rest).1 = none) :
    scanChars font gs year (c :: rest) cw m ws =
      scanChars font gs year (parseKey c rest).2 cw m
        (ws ++ [skipWarning (parseKey c rest).1]) ∧
    ∀ (text : String) (cpp : Int) (sw : Nat) (bg : Option Int) (ex : String → Int),
      ∀ u ∈ generatePlan font text year cpp sw bg ex,
        u.char = "bg" ∨ ∃ M, font u.char = some M := by
  constructor
  · rw [scanChars_cons, hnone]
  · intro text cpp sw bg ex u hu
    rw [generatePlan_eq, mem_sortPlan] at hu
    obtain ⟨hn, hwf⟩ := textMapOf_WF font text year sw
    cases bg with
    | none =>
      rw [emitPhase_none] at hu
      obtain ⟨p, hp, rfl⟩ := emitText_mem.mp hu
      exact Or.inr (hwf p hp).1
    | some b =>
      rw [emitPhase_some] at hu
      obtain ⟨dt', hdt', hpos, rfl⟩ := emitLevel_mem.mp hu
      cases hmg : mapGet (textMapOf font text year sw) (formatDate dt') with
      | none =>
        left
        simp [levelUnitFor, hmg]
      | some e =>
        right
        have h := (hwf _ (mapGet_mem hmg)).1
        simpa [levelUnitFor, hmg] using h

/-- C5 witness: the question mark is not in the demo font; it is skipped
and the following supported character still lands in the plan. -/
theorem unsupported_glyph_skip_witness :
    demoFont (parseKey '?' ['!']).1 = none ∧
    scanChars demoFont (getGraphStartDate 2026) 2026 ['?', '!'] 0 [] [] =
      scanChars demoFont (getGraphStartDate 2026) 2026 (parseKey '?' ['!']).2 0 []
        ([] ++ [skipWarning (parseKey '?' ['!']).1]) ∧
    (bangJan1 ∈ generatePlan demoFont "?!" 2026 20 0 none (fun _ => 0) ∧
      (bangJan1.char = "bg" ∨ ∃ M, demoFont bangJan1.char = some M)) :=
  ⟨by decide,
   (unsupported_glyph_skip demoFont (getGraphStartDate 2026) 2026 '?' ['!'] 0 [] []
     (by decide)).1,
   by decide,
   (unsupported_glyph_skip demoFont (getGraphStartDate 2026) 2026 '?' ['!'] 0 [] []
     (by decide)).2 "?!" 20 0 none (fun _ => 0) bangJan1 (by decide)⟩

/-- C3 witness: a fully completed single-unit plan has no pending units. -/
theorem idempotent_resumption_witness :
    (∀ u ∈ [demoUnit], ∃ k : Int,
      markCompleted "2026-01-05" 20 emptyLedger u.date = some k ∧ u.commits ≤ k) ∧
    getPending [demoUnit] (markCompleted "2026-01-05" 20 emptyLedger) = [] := by
  have h : ∀ u ∈ [demoUnit], ∃ k : Int,
      markCompleted "2026-01-05" 20 emptyLedger u.date = some k ∧ u.commits ≤ k := by
    intro u hu
    rw [List.mem_singleton] at hu
    subst hu
    exact ⟨20, by decide, by decide⟩
  exact ⟨h, idempotent_resumption [demoUnit] (markCompleted "2026-01-05" 20 emptyLedger) h⟩
